import Mathlib

/-!
# Bill-denomination allocation engine: a shallow embedding

This file embeds the bill-allocation core of the repository (the functions
`generateCombos`, `searchAllocation`, `allocateBillBreakdowns`,
`calculateBillBreakdown`, `calculateInventoryTotal` and their helpers) as
executable Lean definitions, and proves or refutes the specified properties
about them.

Machine numbers are modelled as `Int`; JavaScript `Math.floor(a / b)` on
integer operands is `Int.fdiv`.  JavaScript's `Array.prototype.sort` is a
stable sort; a stable sort with a consistent comparator determines its output
list uniquely, so it is modelled by `List.insertionSort` (which is stable)
with the comparator's reflexive order.
-/

namespace SbuxTips

/-- The per-denomination bill counts, in the source's `BillCountsArray`
order `[twenties, tens, fives, ones]`. -/
@[ext]
structure Counts where
  twenties : Int
  tens : Int
  fives : Int
  ones : Int
deriving DecidableEq, Repr

/-- The source's `emptyCounts()`: all four counts zero. -/
def emptyCounts : Counts := ⟨0, 0, 0, 0⟩

/-- Modelled from the spec: the `BillInventory` type comes from
`@shared/schema`, which is not among the sources; from the spec ("mapping
from Denomination to a non-negative integer count") and the source's uses
(`inventory.twenties ?? 0`, dotted field access, optional fields) it is a
record of four optional integer counts. -/
structure BillInventory where
  twenties : Option Int
  tens : Option Int
  fives : Option Int
  ones : Option Int
deriving DecidableEq, Repr

/-- Reading of the four fields by `inventoryToCounts`, defaulting missing ones
to 0 (the source's `?? 0`). -/
def inventoryToCounts (inventory : BillInventory) : Counts :=
  ⟨inventory.twenties.getD 0, inventory.tens.getD 0,
   inventory.fives.getD 0, inventory.ones.getD 0⟩

/-- Packaging of counts back into a `BillInventory` by `countsToInventory`,
with all four fields present. -/
def countsToInventory (counts : Counts) : BillInventory :=
  ⟨some counts.twenties, some counts.tens, some counts.fives, some counts.ones⟩

/-- One `{denomination, quantity}` output pair. -/
structure BreakdownEntry where
  denomination : Int
  quantity : Int
deriving DecidableEq, Repr

/-- Conversion `countsToBreakdown`: map the counts over `DENOMINATION_DETAILS`
(in the order 20, 10, 5, 1) and drop the entries with `quantity > 0` false. -/
def countsToBreakdown (counts : Counts) : List BreakdownEntry :=
  ([⟨20, counts.twenties⟩, ⟨10, counts.tens⟩, ⟨5, counts.fives⟩,
    ⟨1, counts.ones⟩] : List BreakdownEntry).filter
    (fun entry => decide (0 < entry.quantity))

/-- The check `countsFitInventory`:
`counts.every((count, index) => count <= inventory[index])`. -/
def countsFitInventory (counts inventory : Counts) : Bool :=
  decide (counts.twenties ≤ inventory.twenties) &&
  decide (counts.tens ≤ inventory.tens) &&
  decide (counts.fives ≤ inventory.fives) &&
  decide (counts.ones ≤ inventory.ones)

/-- Component-wise difference `inventory - counts` (`subtractCounts`). -/
def subtractCounts (inventory counts : Counts) : Counts :=
  ⟨inventory.twenties - counts.twenties, inventory.tens - counts.tens,
   inventory.fives - counts.fives, inventory.ones - counts.ones⟩

/-- Recursion helper for `descRange`: the descending integers
`[k-1, k-2, ..., 0]`. -/
def descRangeAux : Nat → List Int
  | 0 => []
  | n + 1 => (n : Int) :: descRangeAux n

/-- The index list visited by the JS loop `for (let k = m; k >= 0; k--)`:
`[m, m-1, ..., 0]`, empty when `m < 0`. -/
def descRange (m : Int) : List Int := descRangeAux (m + 1).toNat

/-- The comparator of `generateCombos`'s final sort, as a reflexive order:
ascending lexicographically by (ones, fives, tens, twenties). -/
def comboLe (a b : Counts) : Prop :=
  a.ones < b.ones ∨ (a.ones = b.ones ∧
    (a.fives < b.fives ∨ (a.fives = b.fives ∧
      (a.tens < b.tens ∨ (a.tens = b.tens ∧ a.twenties ≤ b.twenties)))))

instance : DecidableRel comboLe := fun a b => by unfold comboLe; infer_instance

instance : IsTotal Counts comboLe := ⟨by intro a b; unfold comboLe; omega⟩

instance : IsTrans Counts comboLe := ⟨by intro a b c; unfold comboLe; omega⟩

/-- The generator `generateCombos(amount, inventory)`: the triple nested descending loop
over twenties, tens and fives with the ones count forced to the residue,
followed by the stable sort under `comboLe`. -/
def generateCombos (amount : Int) (inventory : Counts) : List Counts :=
  let combos :=
    (descRange (min (amount.fdiv 20) inventory.twenties)).flatMap fun twenties =>
      let afterTwenties := amount - twenties * 20
      (descRange (min (afterTwenties.fdiv 10) inventory.tens)).flatMap fun tens =>
        let afterTens := afterTwenties - tens * 10
        (descRange (min (afterTens.fdiv 5) inventory.fives)).flatMap fun fives =>
          let afterFives := afterTens - fives * 5
          if afterFives ≤ inventory.ones then
            [⟨twenties, tens, fives, afterFives⟩]
          else []
  List.insertionSort comboLe combos

/-- One element of the `partners` array built by `allocateBillBreakdowns`. -/
structure Partner where
  index : Nat
  rounded : Int
  combos : List Counts

/-- The comparator `(a, b) => b.rounded - a.rounded` (sort by descending
amount), as a reflexive order. -/
def partnerLe (a b : Partner) : Prop := b.rounded ≤ a.rounded

instance : DecidableRel partnerLe := fun a b =>
  inferInstanceAs (Decidable (b.rounded ≤ a.rounded))

/-- Depth-first backtracking `searchAllocation`.  At each partner, try its
combos in order; an admissible combo is subtracted from the remaining
inventory and recorded at the partner's original index before recursing.
The JS version mutates `allocation` and undoes the write on backtrack; the
embedding threads the allocation list instead, which yields the same final
array because each partner writes only its own index. -/
def searchAllocation : List Partner → Counts → List Counts →
    Option (Counts × List Counts)
  | [], remaining, allocation => some (remaining, allocation)
  | partner :: rest, remaining, allocation =>
      partner.combos.findSome? fun combo =>
        if countsFitInventory combo remaining then
          searchAllocation rest (subtractCounts remaining combo)
            (allocation.set partner.index combo)
        else none

/-- Total monetary value of an inventory (`calculateInventoryTotal`). -/
def calculateInventoryTotal (inventory : BillInventory) : Int :=
  (inventory.twenties.getD 0) * 20 +
  (inventory.tens.getD 0) * 10 +
  (inventory.fives.getD 0) * 5 +
  (inventory.ones.getD 0)

/-- The `roundedAmounts.map((rounded, index) => ({index, rounded, combos}))`
step of `allocateBillBreakdowns`, with the running index made explicit. -/
def mkPartners (availableCounts : Counts) : List Int → Nat → List Partner
  | [], _ => []
  | rounded :: rest, index =>
      ⟨index, rounded, generateCombos rounded availableCounts⟩ ::
        mkPartners availableCounts rest (index + 1)

/-- The entry point `allocateBillBreakdowns(roundedAmounts, billInventory)`: build each
partner's candidate combos against the full inventory, return `none` as soon
as any partner has no candidates, otherwise run the backtracking search on
the partners sorted by descending amount and convert a successful allocation
into per-partner breakdowns (in original order) plus the remaining
inventory. -/
def allocateBillBreakdowns (roundedAmounts : List Int)
    (billInventory : BillInventory) :
    Option (List (List BreakdownEntry) × BillInventory) :=
  let availableCounts := inventoryToCounts billInventory
  let partners := mkPartners availableCounts roundedAmounts 0
  if partners.any (fun partner => partner.combos.isEmpty) then none
  else
    match searchAllocation (List.insertionSort partnerLe partners)
        availableCounts (List.replicate roundedAmounts.length emptyCounts) with
    | none => none
    | some (remaining, allocation) =>
        some (allocation.map countsToBreakdown, countsToInventory remaining)

/-- Modelled from the spec: `roundToNearestDollar` is imported from
`./utils`, which is not among the sources; the spec describes it as the
deterministic mapping of a payout to the nearest whole currency unit, so on
the integer amounts of this embedding it is the identity. -/
def roundToNearestDollar (amount : Int) : Int := amount

/-- The `for (const {value: denom} of DENOMINATION_DETAILS)` loop body of
`calculateBillBreakdown`: if the remaining amount covers the denomination,
push `floor(remaining / denom)` of it and reduce the remainder. -/
def billBreakdownLoop : List Int → Int → List BreakdownEntry
  | [], _ => []
  | denom :: rest, remaining =>
      if denom ≤ remaining then
        ⟨denom, remaining.fdiv denom⟩ ::
          billBreakdownLoop rest (remaining - denom * remaining.fdiv denom)
      else billBreakdownLoop rest remaining

/-- The unconstrained breakdown `calculateBillBreakdown(amount)`: round, then run the greedy descending
loop over the denominations 20, 10, 5, 1. -/
def calculateBillBreakdown (amount : Int) : List BreakdownEntry :=
  billBreakdownLoop [20, 10, 5, 1] (roundToNearestDollar amount)

/-- The source's `roundAndCalculateBills(payout)`. -/
def roundAndCalculateBills (payout : Int) : Int × List BreakdownEntry :=
  (roundToNearestDollar payout, calculateBillBreakdown (roundToNearestDollar payout))

/-! ## Specification vocabulary (derived measures used in the statements) -/

/-- Total value of a combo: `Σ combo[d] × d`. -/
def comboSum (counts : Counts) : Int :=
  counts.twenties * 20 + counts.tens * 10 + counts.fives * 5 + counts.ones

/-- Total value of a breakdown list: `Σ quantity × denomination`. -/
def breakdownTotal (entries : List BreakdownEntry) : Int :=
  (entries.map (fun entry => entry.denomination * entry.quantity)).sum

/-- Component-wise comparison of counts. -/
def countsLE (a b : Counts) : Prop :=
  a.twenties ≤ b.twenties ∧ a.tens ≤ b.tens ∧ a.fives ≤ b.fives ∧ a.ones ≤ b.ones

/-- All four counts non-negative. -/
def countsNonneg (counts : Counts) : Prop :=
  0 ≤ counts.twenties ∧ 0 ≤ counts.tens ∧ 0 ≤ counts.fives ∧ 0 ≤ counts.ones

instance : DecidableRel countsLE := fun a b => by unfold countsLE; infer_instance

instance : DecidablePred countsNonneg := fun c => by unfold countsNonneg; infer_instance

/-- Component-wise sum of counts. -/
def addCounts (a b : Counts) : Counts :=
  ⟨a.twenties + b.twenties, a.tens + b.tens, a.fives + b.fives, a.ones + b.ones⟩

/-- Sum of a list of counts. -/
def sumCounts (l : List Counts) : Counts := l.foldr addCounts emptyCounts

/-- Replaying a list of (index, value) writes onto an allocation list; this
is the cumulative effect of the `allocation[partner.index] = combo`
assignments along the successful branch of the search. -/
def writeAll (allocation : List Counts) : List (Nat × Counts) → List Counts
  | [] => allocation
  | (index, counts) :: rest => writeAll (allocation.set index counts) rest

/-! ## Helper lemmas -/

theorem fdiv_twenty (a : Int) : a.fdiv 20 = a / 20 := Int.fdiv_eq_ediv a (by norm_num)

theorem fdiv_ten (a : Int) : a.fdiv 10 = a / 10 := Int.fdiv_eq_ediv a (by norm_num)

theorem fdiv_five (a : Int) : a.fdiv 5 = a / 5 := Int.fdiv_eq_ediv a (by norm_num)

theorem mem_descRangeAux {t : Int} {k : Nat} : t ∈ descRangeAux k ↔ 0 ≤ t ∧ t < k := by
  induction k with
  | zero => simp [descRangeAux]
  | succ n ih =>
    simp only [descRangeAux, List.mem_cons, ih]
    omega

theorem mem_descRange {t m : Int} : t ∈ descRange m ↔ 0 ≤ t ∧ t ≤ m := by
  rw [descRange, mem_descRangeAux]
  omega

theorem mem_if_singleton {p : Prop} [Decidable p] {c x : Counts} :
    c ∈ (if p then [x] else ([] : List Counts)) ↔ p ∧ c = x := by
  split <;> simp_all

/-- Membership characterization of the candidate generator: a combo is
produced exactly when its counts are non-negative, fit the cap, and its
value is the requested amount. -/
theorem generateCombos_mem_iff {amount : Int} {inventory c : Counts} :
    c ∈ generateCombos amount inventory ↔
      countsNonneg c ∧ countsLE c inventory ∧ comboSum c = amount := by
  obtain ⟨ctw, cte, cfv, co⟩ := c
  simp only [generateCombos, List.mem_insertionSort, List.mem_flatMap, mem_descRange,
    mem_if_singleton, countsNonneg, countsLE, comboSum, Counts.mk.injEq]
  constructor
  · rintro ⟨tw, ⟨htw0, htw⟩, te, ⟨hte0, hte⟩, fv, ⟨hfv0, hfv⟩, hones, rfl, rfl, rfl, rfl⟩
    rw [fdiv_twenty] at htw
    rw [fdiv_ten] at hte
    rw [fdiv_five] at hfv
    omega
  · rintro ⟨⟨h1, h2, h3, h4⟩, ⟨h5, h6, h7, h8⟩, hsum⟩
    refine ⟨ctw, ⟨h1, ?_⟩, cte, ⟨h2, ?_⟩, cfv, ⟨h3, ?_⟩, ?_, rfl, rfl, rfl, ?_⟩
    · rw [fdiv_twenty]; omega
    · rw [fdiv_ten]; omega
    · rw [fdiv_five]; omega
    · omega
    · omega

/-- A negative amount yields no candidates: the twenties loop bound
`min(floor(amount / 20), cap)` is already negative, so no iteration runs. -/
theorem generateCombos_of_neg {r : Int} (hneg : r < 0) (c : Counts) :
    generateCombos r c = [] := by
  simp only [generateCombos]
  have hb : (min (r.fdiv 20) c.twenties + 1).toNat = 0 := by
    rw [fdiv_twenty]; omega
  rw [descRange, hb]
  rfl

/-- Every partner built by `mkPartners` for a requested amount carries that
amount's candidate list against the full inventory. -/
theorem exists_partner_of_mem (avail : Counts) (r : Int) :
    ∀ (amounts : List Int) (s : Nat), r ∈ amounts →
      ∃ p ∈ mkPartners avail amounts s, p.combos = generateCombos r avail := by
  intro amounts
  induction amounts with
  | nil => intro s hr; cases hr
  | cons a rest ih =>
    intro s hr
    rcases List.mem_cons.mp hr with rfl | h
    · exact ⟨⟨s, r, generateCombos r avail⟩, List.mem_cons_self _ _, rfl⟩
    · obtain ⟨p, hp, he⟩ := ih (s + 1) h
      exact ⟨p, List.mem_cons_of_mem _ hp, he⟩

/-- If some requested amount has no candidate combos against the full
inventory, `allocateBillBreakdowns` returns `none` by the early exit, before
the backtracking search. -/
theorem allocate_none_of_exists_empty (roundedAmounts : List Int)
    (billInventory : BillInventory)
    (h : ∃ r ∈ roundedAmounts,
      generateCombos r (inventoryToCounts billInventory) = []) :
    allocateBillBreakdowns roundedAmounts billInventory = none := by
  obtain ⟨r, hr, hempty⟩ := h
  obtain ⟨p, hp, hcombos⟩ :=
    exists_partner_of_mem (inventoryToCounts billInventory) r roundedAmounts 0 hr
  have hcond : (mkPartners (inventoryToCounts billInventory) roundedAmounts 0).any
      (fun partner => partner.combos.isEmpty) = true := by
    rw [List.any_eq_true]
    refine ⟨p, hp, ?_⟩
    rw [List.isEmpty_iff, hcombos]
    exact hempty
  simp [allocateBillBreakdowns, hcond]

theorem subtractCounts_emptyCounts (r : Counts) : subtractCounts r emptyCounts = r := by
  ext <;> simp [subtractCounts, emptyCounts]

theorem sumCounts_cons (c : Counts) (l : List Counts) :
    sumCounts (c :: l) = addCounts c (sumCounts l) := rfl

theorem subtractCounts_subtractCounts (r c s : Counts) :
    subtractCounts (subtractCounts r c) s = subtractCounts r (addCounts c s) := by
  ext <;> simp [subtractCounts, addCounts] <;> ring

/-- The fit check, unfolded to its four comparisons. -/
theorem countsFitInventory_eq_true {c r : Counts} :
    countsFitInventory c r = true ↔
      c.twenties ≤ r.twenties ∧ c.tens ≤ r.tens ∧ c.fives ≤ r.fives ∧
      c.ones ≤ r.ones := by
  simp [countsFitInventory, and_assoc]

/-- Soundness invariant of the backtracking search: a successful run chooses
one combo per partner (from that partner's candidate list, in order), the
returned remaining inventory is the initial one minus the chosen combos'
sum, it is component-wise non-negative whenever the initial one is, and the
returned allocation list is the initial one overwritten at each partner's
own index with its chosen combo. -/
theorem searchAllocation_spec :
    ∀ (ps : List Partner) (rem0 : Counts) (alloc0 : List Counts) (r : Counts)
      (a : List Counts),
      searchAllocation ps rem0 alloc0 = some (r, a) →
      ∃ cs : List Counts,
        List.Forall₂ (fun c p => c ∈ p.combos) cs ps ∧
        r = subtractCounts rem0 (sumCounts cs) ∧
        (countsNonneg rem0 → countsNonneg r) ∧
        a = writeAll alloc0 (List.zip (ps.map Partner.index) cs) := by
  intro ps
  induction ps with
  | nil =>
    intro rem0 alloc0 r a h
    simp only [searchAllocation, Option.some.injEq, Prod.mk.injEq] at h
    refine ⟨[], List.Forall₂.nil, ?_, fun hn => ?_, ?_⟩
    · rw [← h.1]
      exact (subtractCounts_emptyCounts rem0).symm
    · rw [← h.1]; exact hn
    · rw [← h.2]; rfl
  | cons p rest ih =>
    intro rem0 alloc0 r a h
    simp only [searchAllocation] at h
    obtain ⟨c, hc, hfc⟩ := List.exists_of_findSome?_eq_some h
    cases hfitb : countsFitInventory c rem0 with
    | false => rw [hfitb] at hfc; simp at hfc
    | true =>
      rw [hfitb] at hfc
      simp only [if_true] at hfc
      obtain ⟨hf1, hf2, hf3, hf4⟩ := countsFitInventory_eq_true.mp hfitb
      obtain ⟨cs, hall, hr, hnn, ha⟩ := ih _ _ _ _ hfc
      refine ⟨c :: cs, List.Forall₂.cons hc hall, ?_, fun _ => ?_, ?_⟩
      · rw [hr, subtractCounts_subtractCounts, sumCounts_cons]
      · apply hnn
        refine ⟨?_, ?_, ?_, ?_⟩ <;> simp only [subtractCounts] <;> omega
      · rw [ha]
        rfl

theorem writeAll_length :
    ∀ (pairs : List (Nat × Counts)) (alloc : List Counts),
      (writeAll alloc pairs).length = alloc.length := by
  intro pairs
  induction pairs with
  | nil => intro alloc; rfl
  | cons q rest ih =>
    intro alloc
    obtain ⟨i, c⟩ := q
    rw [writeAll, ih, List.length_set]

theorem writeAll_getElem?_of_not_mem :
    ∀ (pairs : List (Nat × Counts)) (alloc : List Counts) (j : Nat),
      (∀ q ∈ pairs, q.1 ≠ j) → (writeAll alloc pairs)[j]? = alloc[j]? := by
  intro pairs
  induction pairs with
  | nil => intro alloc j _; rfl
  | cons q rest ih =>
    intro alloc j hne
    obtain ⟨i, c⟩ := q
    rw [writeAll, ih _ j (fun q hq => hne q (List.mem_cons_of_mem _ hq)),
      List.getElem?_set_ne (hne (i, c) (List.mem_cons_self _ _))]

theorem writeAll_getElem?_of_mem :
    ∀ (pairs : List (Nat × Counts)) (alloc : List Counts) (i : Nat) (c : Counts),
      (pairs.map Prod.fst).Nodup → (i, c) ∈ pairs → i < alloc.length →
      (writeAll alloc pairs)[i]? = some c := by
  intro pairs
  induction pairs with
  | nil => intro alloc i c _ hmem _; cases hmem
  | cons q rest ih =>
    intro alloc i c hnd hmem hlen
    obtain ⟨j, d⟩ := q
    rw [List.map_cons, List.nodup_cons] at hnd
    rcases List.mem_cons.mp hmem with heq | hmem'
    · have hij : i = j := congrArg Prod.fst heq
      have hcd : c = d := congrArg Prod.snd heq
      subst hij
      subst hcd
      rw [writeAll, writeAll_getElem?_of_not_mem rest _ i ?_,
        List.getElem?_set_self hlen]
      intro q hq hq1
      have hfst : q.1 ∈ List.map Prod.fst rest := List.mem_map_of_mem Prod.fst hq
      rw [hq1] at hfst
      exact hnd.1 hfst
    · exact ih _ i c hnd.2 hmem' (by rw [List.length_set]; exact hlen)

theorem mkPartners_length (avail : Counts) :
    ∀ (amounts : List Int) (s : Nat),
      (mkPartners avail amounts s).length = amounts.length := by
  intro amounts
  induction amounts with
  | nil => intro s; rfl
  | cons a rest ih => intro s; simp [mkPartners, ih]

theorem mkPartners_map_index (avail : Counts) :
    ∀ (amounts : List Int) (s : Nat),
      (mkPartners avail amounts s).map Partner.index =
        List.range' s amounts.length := by
  intro amounts
  induction amounts with
  | nil => intro s; rfl
  | cons a rest ih => intro s; simp [mkPartners, List.range', ih]

theorem mkPartners_mem (avail : Counts) :
    ∀ (amounts : List Int) (s : Nat) (p : Partner),
      p ∈ mkPartners avail amounts s →
      ∃ k, k < amounts.length ∧ p.index = s + k ∧
        p.rounded = amounts.getD k 0 ∧
        p.combos = generateCombos (amounts.getD k 0) avail := by
  intro amounts
  induction amounts with
  | nil => intro s p hp; cases hp
  | cons a rest ih =>
    intro s p hp
    rcases List.mem_cons.mp hp with rfl | hp'
    · exact ⟨0, by simp, by simp, by simp, by simp⟩
    · obtain ⟨k, hk, h1, h2, h3⟩ := ih (s + 1) p hp'
      exact ⟨k + 1, by simpa using hk, by omega, by simpa using h2,
        by simpa using h3⟩

theorem sumCounts_proj (f : Counts → Int)
    (hadd : ∀ a b, f (addCounts a b) = f a + f b) (hzero : f emptyCounts = 0) :
    ∀ l : List Counts, f (sumCounts l) = (l.map f).sum := by
  intro l
  induction l with
  | nil => simpa [sumCounts]
  | cons c cs ih => simp [sumCounts_cons, hadd, ih]

theorem sum_map_getD (l : List Counts) (f : Counts → Int) :
    (l.map f).sum = ∑ i ∈ Finset.range l.length, f (l.getD i emptyCounts) := by
  induction l with
  | nil => simp
  | cons c cs ih =>
    rw [List.map_cons, List.sum_cons, ih, List.length_cons,
      Finset.sum_range_succ']
    simp only [List.getD_cons_succ, List.getD_cons_zero]
    ring

/-- Replaying distinct-index writes: the write paired with position `j` of
the index list lands at that index. -/
theorem writeAll_zip_getD (idx : List Nat) (cs : List Counts)
    (alloc : List Counts) (hlen : idx.length = cs.length) (hnd : idx.Nodup)
    (hbound : ∀ i ∈ idx, i < alloc.length) (j : Nat) (hj : j < idx.length) :
    (writeAll alloc (idx.zip cs)).getD (idx.getD j 0) emptyCounts =
      cs.getD j emptyCounts := by
  have hjc : j < cs.length := by omega
  have hzlen : j < (idx.zip cs).length := by
    rw [List.length_zip, hlen, min_self]
    exact hjc
  have hmem : (idx.getD j 0, cs.getD j emptyCounts) ∈ idx.zip cs := by
    have h2 := List.getElem_mem hzlen
    rw [List.getElem_zip] at h2
    rw [List.getD_eq_getElem idx 0 hj, List.getD_eq_getElem cs emptyCounts hjc]
    exact h2
  have hfst : (idx.zip cs).map Prod.fst = idx := List.map_fst_zip idx cs (by omega)
  have hidx_mem : idx.getD j 0 ∈ idx := by
    rw [List.getD_eq_getElem idx 0 hj]
    exact List.getElem_mem hj
  have hw := writeAll_getElem?_of_mem (idx.zip cs) alloc _ _
    (by rw [hfst]; exact hnd) hmem (hbound _ hidx_mem)
  rw [List.getD_eq_getElem?_getD, hw, Option.getD_some]

/-- When the indices written are a permutation of all positions, replaying
the writes permutes the written values, so their component-wise sum is the
sum of the values. -/
theorem sumCounts_writeAll_zip {idx : List Nat} {cs : List Counts} {n : Nat}
    (hidxlen : idx.length = n) (hcslen : cs.length = n)
    (hperm : idx.Perm (List.range' 0 n)) (hnd : idx.Nodup) :
    sumCounts (writeAll (List.replicate n emptyCounts) (idx.zip cs)) =
      sumCounts cs := by
  set a := writeAll (List.replicate n emptyCounts) (idx.zip cs) with haDef
  have halen : a.length = n := by
    rw [haDef, writeAll_length, List.length_replicate]
  have hbound : ∀ i ∈ idx, i < (List.replicate n emptyCounts).length := by
    intro i hi
    rw [List.length_replicate]
    have hm := hperm.mem_iff.mp hi
    rw [List.mem_range'] at hm
    omega
  have hsum : ∀ (f : Counts → Int), (∀ x y, f (addCounts x y) = f x + f y) →
      f emptyCounts = 0 → f (sumCounts a) = f (sumCounts cs) := by
    intro f hadd hzero
    rw [sumCounts_proj f hadd hzero, sumCounts_proj f hadd hzero,
      sum_map_getD, sum_map_getD, halen, hcslen]
    symm
    refine Finset.sum_bij (fun j _ => idx.getD j 0) ?_ ?_ ?_ ?_
    · intro j hjr
      dsimp only
      rw [Finset.mem_range] at hjr ⊢
      have hj : j < idx.length := by omega
      have hmem : idx.getD j 0 ∈ idx := by
        rw [List.getD_eq_getElem idx 0 hj]
        exact List.getElem_mem hj
      have hm := hperm.mem_iff.mp hmem
      rw [List.mem_range'] at hm
      omega
    · intro j1 h1 j2 h2 heq
      dsimp only at heq
      rw [Finset.mem_range] at h1 h2
      have hj1 : j1 < idx.length := by omega
      have hj2 : j2 < idx.length := by omega
      rw [List.getD_eq_getElem idx 0 hj1, List.getD_eq_getElem idx 0 hj2] at heq
      have hinj := List.nodup_iff_injective_get.mp hnd
      have hfin : (⟨j1, hj1⟩ : Fin idx.length) = ⟨j2, hj2⟩ := by
        apply hinj
        simpa [List.get_eq_getElem] using heq
      simpa using congrArg Fin.val hfin
    · intro i hi
      rw [Finset.mem_range] at hi
      have hmem : i ∈ idx := by
        apply hperm.mem_iff.mpr
        rw [List.mem_range']
        exact ⟨i, by omega, by omega⟩
      obtain ⟨⟨j, hj⟩, hget⟩ := List.mem_iff_get.mp hmem
      refine ⟨j, Finset.mem_range.mpr (by omega), ?_⟩
      dsimp only
      rw [List.getD_eq_getElem idx 0 hj, ← hget, List.get_eq_getElem]
    · intro j hjr
      dsimp only
      rw [Finset.mem_range] at hjr
      have hkey := writeAll_zip_getD idx cs (List.replicate n emptyCounts)
        (by omega) hnd hbound j (by omega)
      rw [← haDef] at hkey
      exact (congrArg f hkey).symm
  ext
  · exact hsum (fun c => c.twenties) (fun x y => rfl) rfl
  · exact hsum (fun c => c.tens) (fun x y => rfl) rfl
  · exact hsum (fun c => c.fives) (fun x y => rfl) rfl
  · exact hsum (fun c => c.ones) (fun x y => rfl) rfl

/-- Soundness of the partner pipeline: a successful search over any
permutation of the partners built from the requested amounts produces an
allocation list holding, at each original position, one of the generator's
candidates for that position's amount, with the remaining inventory equal to
the initial one minus the allocation's sum. -/
theorem alloc_from_search (amounts : List Int) (avail : Counts)
    (ps : List Partner) (hps : ps.Perm (mkPartners avail amounts 0))
    (r : Counts) (a : List Counts)
    (hs : searchAllocation ps avail
      (List.replicate amounts.length emptyCounts) = some (r, a)) :
    a.length = amounts.length ∧
    (∀ k, k < amounts.length →
      a.getD k emptyCounts ∈ generateCombos (amounts.getD k 0) avail) ∧
    r = subtractCounts avail (sumCounts a) ∧
    (countsNonneg avail → countsNonneg r) := by
  obtain ⟨cs, hall, hr, hnn, ha⟩ := searchAllocation_spec _ _ _ _ _ hs
  have hlenS : ps.length = amounts.length := by
    rw [hps.length_eq, mkPartners_length]
  have hlenCs : cs.length = amounts.length := by
    rw [hall.length_eq, hlenS]
  have hidxperm : (ps.map Partner.index).Perm
      (List.range' 0 amounts.length) := by
    rw [← mkPartners_map_index avail amounts 0]
    exact hps.map Partner.index
  have hidxlen : (ps.map Partner.index).length = amounts.length := by
    rw [List.length_map]; exact hlenS
  have hidxnodup : (ps.map Partner.index).Nodup :=
    hidxperm.symm.nodup (List.nodup_range' _ _)
  have halen : a.length = amounts.length := by
    rw [ha, writeAll_length, List.length_replicate]
  have hsumeq : sumCounts a = sumCounts cs := by
    rw [ha]
    exact sumCounts_writeAll_zip hidxlen hlenCs hidxperm hidxnodup
  have hbound : ∀ i ∈ ps.map Partner.index,
      i < (List.replicate amounts.length emptyCounts).length := by
    intro i hi
    rw [List.length_replicate]
    have hm2 := hidxperm.mem_iff.mp hi
    rw [List.mem_range'] at hm2
    omega
  have hmem : ∀ k, k < amounts.length →
      a.getD k emptyCounts ∈ generateCombos (amounts.getD k 0) avail := by
    intro k hk
    have hkmem : k ∈ ps.map Partner.index := by
      apply hidxperm.mem_iff.mpr
      rw [List.mem_range']
      exact ⟨k, hk, by omega⟩
    obtain ⟨⟨j, hj⟩, hget⟩ := List.mem_iff_get.mp hkmem
    have hjS : j < ps.length := by rw [List.length_map] at hj; exact hj
    have hjC : j < cs.length := by omega
    have hgetk : (ps.map Partner.index).getD j 0 = k := by
      rw [List.getD_eq_getElem _ 0 hj, ← hget, List.get_eq_getElem]
    have hkey := writeAll_zip_getD (ps.map Partner.index) cs
      (List.replicate amounts.length emptyCounts)
      (by omega) hidxnodup hbound j hj
    rw [hgetk] at hkey
    rw [← ha] at hkey
    rw [hkey]
    have hforall := List.forall₂_iff_get.mp hall
    have hcombo := hforall.2 j hjC hjS
    have hpmem : ps.get ⟨j, hjS⟩ ∈ mkPartners avail amounts 0 :=
      hps.mem_iff.mp (List.get_mem ps j hjS)
    obtain ⟨m, hm, hidx, hrnd, hcombos⟩ := mkPartners_mem avail amounts 0 _ hpmem
    have hptoidx : (ps.map Partner.index).getD j 0 =
        (ps.get ⟨j, hjS⟩).index := by
      rw [List.getD_eq_getElem _ 0 hj, List.getElem_map, List.get_eq_getElem]
    have hmk : m = k := by omega
    rw [hcombos, hmk] at hcombo
    rw [List.getD_eq_getElem cs emptyCounts hjC]
    rw [List.get_eq_getElem] at hcombo
    exact hcombo
  refine ⟨halen, hmem, ?_, hnn⟩
  rw [hsumeq]
  exact hr

/-- Master soundness of a successful `allocateBillBreakdowns` run: there is
an allocation list, one counts record per original recipient position, from
which the output is assembled — the breakdowns are its image under
`countsToBreakdown`, each record is one of the generator's candidates for
that position's requested amount against the full inventory, the records'
sum fits the inventory, and the returned remaining inventory is the input
minus that sum, component-wise non-negative. -/
theorem allocate_success_spec (roundedAmounts : List Int)
    (billInventory : BillInventory) (bs : List (List BreakdownEntry))
    (rem : BillInventory)
    (hinv : countsNonneg (inventoryToCounts billInventory))
    (h : allocateBillBreakdowns roundedAmounts billInventory = some (bs, rem)) :
    ∃ alloc : List Counts,
      alloc.length = roundedAmounts.length ∧
      bs = alloc.map countsToBreakdown ∧
      (∀ k, k < roundedAmounts.length →
        alloc.getD k emptyCounts ∈
          generateCombos (roundedAmounts.getD k 0)
            (inventoryToCounts billInventory)) ∧
      countsLE (sumCounts alloc) (inventoryToCounts billInventory) ∧
      rem = countsToInventory
        (subtractCounts (inventoryToCounts billInventory) (sumCounts alloc)) ∧
      countsNonneg
        (subtractCounts (inventoryToCounts billInventory) (sumCounts alloc)) := by
  simp only [allocateBillBreakdowns] at h
  split at h
  · exact Option.noConfusion h
  split at h
  · exact Option.noConfusion h
  next r a hs =>
    simp only [Option.some.injEq, Prod.mk.injEq] at h
    obtain ⟨hbs, hrem⟩ := h
    obtain ⟨halen, hmem, hr, hnn⟩ := alloc_from_search roundedAmounts
      (inventoryToCounts billInventory) _
      (List.perm_insertionSort partnerLe _) r a hs
    refine ⟨a, halen, hbs.symm, hmem, ?_, ?_, ?_⟩
    · have hr0 := hnn hinv
      rw [hr] at hr0
      obtain ⟨q1, q2, q3, q4⟩ := hr0
      simp only [subtractCounts] at q1 q2 q3 q4
      exact ⟨by omega, by omega, by omega, by omega⟩
    · rw [← hrem, hr]
    · have hr0 := hnn hinv
      rw [hr] at hr0
      exact hr0

/-! ## Claim theorems -/

/-- C4: generator soundness — every combo returned by
`generateCombos(amount, cap)` respects the cap in every denomination and its
total value `Σ combo[d] × d` is exactly the amount. -/
theorem generateCombos_sound (amount : Int) (inventory c : Counts)
    (h : c ∈ generateCombos amount inventory) :
    c.twenties ≤ inventory.twenties ∧ c.tens ≤ inventory.tens ∧
    c.fives ≤ inventory.fives ∧ c.ones ≤ inventory.ones ∧
    c.twenties * 20 + c.tens * 10 + c.fives * 5 + c.ones * 1 = amount := by
  obtain ⟨_, hle, hsum⟩ := generateCombos_mem_iff.mp h
  refine ⟨hle.1, hle.2.1, hle.2.2.1, hle.2.2.2, ?_⟩
  simp only [comboSum] at hsum
  omega

/-- Witness for C4 at a concrete combo of Scenario A. -/
theorem generateCombos_sound_witness :
    (⟨0, 2, 1, 0⟩ : Counts) ∈ generateCombos 25 ⟨0, 2, 2, 5⟩ ∧
    ((0 : Int) ≤ 0 ∧ (2 : Int) ≤ 2 ∧ (1 : Int) ≤ 2 ∧ (0 : Int) ≤ 5 ∧
      (0 : Int) * 20 + 2 * 10 + 1 * 5 + 0 * 1 = 25) :=
  ⟨by decide, generateCombos_sound 25 ⟨0, 2, 2, 5⟩ ⟨0, 2, 1, 0⟩ (by decide)⟩

/-- C5: generator completeness — every cap-respecting non-negative
combination summing to the amount is in the returned list; consequently the
list is empty iff no such combination exists, and amount 0 yields exactly
the all-zero combo. -/
theorem generateCombos_complete (amount : Int) (inventory : Counts)
    (hinv : countsNonneg inventory) :
    (∀ c : Counts, countsNonneg c → countsLE c inventory →
      comboSum c = amount → c ∈ generateCombos amount inventory) ∧
    (generateCombos amount inventory = [] ↔
      ¬ ∃ c : Counts, countsNonneg c ∧ countsLE c inventory ∧
        comboSum c = amount) ∧
    (amount = 0 → generateCombos amount inventory = [⟨0, 0, 0, 0⟩]) := by
  obtain ⟨g1, g2, g3, g4⟩ := hinv
  refine ⟨fun c h1 h2 h3 => generateCombos_mem_iff.mpr ⟨h1, h2, h3⟩, ⟨?_, ?_⟩, ?_⟩
  · intro hemp ⟨c, hc⟩
    have hmem := generateCombos_mem_iff.mpr hc
    rw [hemp] at hmem
    cases hmem
  · intro hnone
    rcases hl : generateCombos amount inventory with _ | ⟨c, rest⟩
    · rfl
    · exfalso
      have hmem : c ∈ generateCombos amount inventory := by
        rw [hl]; exact List.mem_cons_self _ _
      exact hnone ⟨c, generateCombos_mem_iff.mp hmem⟩
  · rintro rfl
    have e20 : Int.fdiv 0 20 = 0 := by decide
    have e10 : Int.fdiv 0 10 = 0 := by decide
    have e5 : Int.fdiv 0 5 = 0 := by decide
    have d0 : descRange 0 = [0] := by decide
    simp [generateCombos, e20, e10, e5, d0, min_eq_left, g1, g2, g3, g4,
      List.insertionSort, List.orderedInsert]

/-- Witness for C5 at Scenario A's inventory. -/
theorem generateCombos_complete_witness :
    countsNonneg ⟨0, 2, 2, 5⟩ ∧
    ((∀ c : Counts, countsNonneg c → countsLE c (⟨0, 2, 2, 5⟩ : Counts) →
        comboSum c = 25 → c ∈ generateCombos 25 ⟨0, 2, 2, 5⟩) ∧
      (generateCombos 25 ⟨0, 2, 2, 5⟩ = [] ↔
        ¬ ∃ c : Counts, countsNonneg c ∧ countsLE c (⟨0, 2, 2, 5⟩ : Counts) ∧
          comboSum c = 25) ∧
      ((25 : Int) = 0 → generateCombos 25 ⟨0, 2, 2, 5⟩ = [⟨0, 0, 0, 0⟩])) :=
  ⟨by decide, generateCombos_complete 25 ⟨0, 2, 2, 5⟩ (by decide)⟩

/-- C6: the generator's output is sorted ascending lexicographically by
(ones, fives, tens, twenties) — `comboLe` spells out exactly that key. -/
theorem generateCombos_sorted (amount : Int) (inventory : Counts) :
    List.Pairwise comboLe (generateCombos amount inventory) := by
  simp only [generateCombos]
  exact List.sorted_insertionSort comboLe _

/-- C8: for non-negative amounts the greedy unconstrained breakdown's total
`Σ quantity × denomination` is exactly the amount. -/
theorem calculateBillBreakdown_total (amount : Int) (h : 0 ≤ amount) :
    breakdownTotal (calculateBillBreakdown amount) = amount := by
  simp only [calculateBillBreakdown, roundToNearestDollar, billBreakdownLoop]
  split_ifs <;>
    simp only [breakdownTotal, List.map_cons, List.map_nil, List.sum_cons,
      List.sum_nil, fdiv_twenty, fdiv_ten, fdiv_five, Int.fdiv_one] at * <;>
    omega

/-- Witness for C8 at Scenario D's amount 37. -/
theorem calculateBillBreakdown_total_witness :
    (0 : Int) ≤ 37 ∧ breakdownTotal (calculateBillBreakdown 37) = 37 :=
  ⟨by decide, calculateBillBreakdown_total 37 (by decide)⟩

/-- C10: allocating an empty list of targets always succeeds, returning no
breakdowns and the input inventory (with missing fields normalized to 0). -/
theorem allocateBillBreakdowns_empty_targets (inventory : BillInventory) :
    allocateBillBreakdowns [] inventory =
      some ([], ⟨some (inventory.twenties.getD 0), some (inventory.tens.getD 0),
                 some (inventory.fives.getD 0), some (inventory.ones.getD 0)⟩) := by
  simp [allocateBillBreakdowns, mkPartners, searchAllocation, List.insertionSort,
    countsToInventory, inventoryToCounts]

/-- C1 counterexample: an unrepresentable single amount (Scenario C) and a
jointly-infeasible input whose amounts are each individually representable
produce the identical failure value `none` — the caller cannot distinguish
the two outcomes, so no `UnrepresentableAmount` / `InfeasibleAllocation`
distinction exists. -/
theorem allocate_failure_signals_equal :
    allocateBillBreakdowns [11] ⟨some 0, some 0, some 0, some 10⟩ = none ∧
    allocateBillBreakdowns [25, 15] ⟨some 0, some 2, some 2, some 5⟩ = none ∧
    generateCombos 11 (inventoryToCounts ⟨some 0, some 0, some 0, some 10⟩) = [] ∧
    generateCombos 25 (inventoryToCounts ⟨some 0, some 2, some 2, some 5⟩) ≠ [] ∧
    generateCombos 15 (inventoryToCounts ⟨some 0, some 2, some 2, some 5⟩) ≠ [] := by
  decide

/-- C1 (amended): when some single recipient amount has zero candidate
combos against the full inventory, `allocateBillBreakdowns` reports failure
through the preprocessing early exit — but the failure value is the same
`none` that a failed joint search produces, not a distinct signal. -/
theorem allocate_fastFail_unrepresentable (roundedAmounts : List Int)
    (billInventory : BillInventory)
    (h : ∃ r ∈ roundedAmounts,
      generateCombos r (inventoryToCounts billInventory) = []) :
    allocateBillBreakdowns roundedAmounts billInventory = none :=
  allocate_none_of_exists_empty roundedAmounts billInventory h

/-- Witness for the amended C1 at Scenario C. -/
theorem allocate_fastFail_unrepresentable_witness :
    (∃ r ∈ [(11 : Int)],
      generateCombos r (inventoryToCounts ⟨some 0, some 0, some 0, some 10⟩) = []) ∧
    allocateBillBreakdowns [11] ⟨some 0, some 0, some 0, some 10⟩ = none :=
  ⟨⟨11, by decide, by decide⟩,
    allocate_fastFail_unrepresentable [11] ⟨some 0, some 0, some 0, some 10⟩
      ⟨11, by decide, by decide⟩⟩

/-- C2 counterexample: a negative target produces the very same generic
`none` that ordinary business infeasibility produces — there is no distinct
`InvalidAmount` rejection — and the failure arises from running the
combination generator on the negative amount (which returns the empty
candidate list), not from a validation step before it. -/
theorem allocate_negative_target_counterexample :
    allocateBillBreakdowns [-5] ⟨some 5, some 5, some 5, some 5⟩ = none ∧
    allocateBillBreakdowns [10000] ⟨some 5, some 5, some 5, some 5⟩ = none ∧
    generateCombos (-5) (inventoryToCounts ⟨some 5, some 5, some 5, some 5⟩) = [] := by
  decide

/-- C2 (amended): any input containing a negative target makes
`allocateBillBreakdowns` return the generic failure `none`: the combination
generator is invoked on the negative amount, produces no candidates, and the
shared empty-candidates early exit fires — there is no separate
`InvalidAmount` signal and no validation before combination generation. -/
theorem allocate_negative_target_none (roundedAmounts : List Int)
    (billInventory : BillInventory) (r : Int) (hneg : r < 0)
    (hmem : r ∈ roundedAmounts) :
    allocateBillBreakdowns roundedAmounts billInventory = none ∧
    generateCombos r (inventoryToCounts billInventory) = [] := by
  have hempty := generateCombos_of_neg hneg (inventoryToCounts billInventory)
  exact ⟨allocate_none_of_exists_empty roundedAmounts billInventory
    ⟨r, hmem, hempty⟩, hempty⟩

/-- Witness for the amended C2 at target −5. -/
theorem allocate_negative_target_none_witness :
    ((-5 : Int) < 0 ∧ (-5 : Int) ∈ [(-5 : Int)]) ∧
    (allocateBillBreakdowns [-5] ⟨some 5, some 5, some 5, some 5⟩ = none ∧
      generateCombos (-5) (inventoryToCounts ⟨some 5, some 5, some 5, some 5⟩) = []) :=
  ⟨⟨by decide, by decide⟩,
    allocate_negative_target_none [-5] ⟨some 5, some 5, some 5, some 5⟩ (-5)
      (by decide) (by decide)⟩

/-- C3 counterexample: on Scenario A's exact input the search finds no
feasible allocation and `allocateBillBreakdowns` returns `none` — the
scenario's inventory (total value 35) cannot cover targets 25 + 15 = 40. -/
theorem scenarioA_counterexample :
    allocateBillBreakdowns [25, 15] ⟨some 0, some 2, some 2, some 5⟩ = none := by
  decide

/-- Dropping the zero-quantity entries does not change a breakdown's total
(for non-negative counts). -/
theorem breakdownTotal_countsToBreakdown {c : Counts} (h : countsNonneg c) :
    breakdownTotal (countsToBreakdown c) = comboSum c := by
  obtain ⟨ctw, cte, cfv, co⟩ := c
  obtain ⟨h1, h2, h3, h4⟩ := h
  dsimp only at h1 h2 h3 h4
  by_cases b1 : (0 : Int) < ctw <;> by_cases b2 : (0 : Int) < cte <;>
    by_cases b3 : (0 : Int) < cfv <;> by_cases b4 : (0 : Int) < co <;>
    simp [countsToBreakdown, breakdownTotal, comboSum, b1, b2, b3, b4] <;>
    omega

/-- C7: whenever `allocateBillBreakdowns` returns a solution, there is an
allocation (one combo per original recipient position) whose per-position
value equals that position's target, whose per-denomination sum is within
the inventory, and the returned remaining inventory is the input minus the
total allocated, component-wise non-negative. -/
theorem allocateBillBreakdowns_invariants (roundedAmounts : List Int)
    (billInventory : BillInventory) (bs : List (List BreakdownEntry))
    (rem : BillInventory)
    (hinv : countsNonneg (inventoryToCounts billInventory))
    (h : allocateBillBreakdowns roundedAmounts billInventory = some (bs, rem)) :
    ∃ alloc : List Counts,
      alloc.length = roundedAmounts.length ∧
      bs = alloc.map countsToBreakdown ∧
      (∀ k, k < roundedAmounts.length →
        comboSum (alloc.getD k emptyCounts) = roundedAmounts.getD k 0) ∧
      countsLE (sumCounts alloc) (inventoryToCounts billInventory) ∧
      rem = countsToInventory
        (subtractCounts (inventoryToCounts billInventory) (sumCounts alloc)) ∧
      countsNonneg
        (subtractCounts (inventoryToCounts billInventory) (sumCounts alloc)) := by
  obtain ⟨alloc, h1, h2, h3, h4, h5, h6⟩ := allocate_success_spec _ _ _ _ hinv h
  exact ⟨alloc, h1, h2,
    fun k hk => (generateCombos_mem_iff.mp (h3 k hk)).2.2, h4, h5, h6⟩

/-- Witness for C7 at Scenario B. -/
theorem allocateBillBreakdowns_invariants_witness :
    countsNonneg (inventoryToCounts ⟨some 1, some 0, some 0, some 3⟩) ∧
    allocateBillBreakdowns [20, 3] ⟨some 1, some 0, some 0, some 3⟩ =
      some ([[⟨20, 1⟩], [⟨1, 3⟩]], ⟨some 0, some 0, some 0, some 0⟩) ∧
    (∃ alloc : List Counts,
      alloc.length = ([20, 3] : List Int).length ∧
      ([[⟨20, 1⟩], [⟨1, 3⟩]] : List (List BreakdownEntry)) =
        alloc.map countsToBreakdown ∧
      (∀ k, k < ([20, 3] : List Int).length →
        comboSum (alloc.getD k emptyCounts) = ([20, 3] : List Int).getD k 0) ∧
      countsLE (sumCounts alloc)
        (inventoryToCounts ⟨some 1, some 0, some 0, some 3⟩) ∧
      (⟨some 0, some 0, some 0, some 0⟩ : BillInventory) = countsToInventory
        (subtractCounts (inventoryToCounts ⟨some 1, some 0, some 0, some 3⟩)
          (sumCounts alloc)) ∧
      countsNonneg
        (subtractCounts (inventoryToCounts ⟨some 1, some 0, some 0, some 3⟩)
          (sumCounts alloc))) :=
  ⟨by decide, by decide,
    allocateBillBreakdowns_invariants [20, 3] ⟨some 1, some 0, some 0, some 3⟩
      [[⟨20, 1⟩], [⟨1, 3⟩]] ⟨some 0, some 0, some 0, some 0⟩
      (by decide) (by decide)⟩

/-- C9: a successful allocation's breakdown list is in the caller's original
recipient order — position `k` of the output totals exactly position `k` of
the input targets — and every listed entry has a strictly positive quantity
(zero-quantity denominations are omitted). -/
theorem allocateBillBreakdowns_output_order (roundedAmounts : List Int)
    (billInventory : BillInventory) (bs : List (List BreakdownEntry))
    (rem : BillInventory)
    (hinv : countsNonneg (inventoryToCounts billInventory))
    (h : allocateBillBreakdowns roundedAmounts billInventory = some (bs, rem)) :
    bs.length = roundedAmounts.length ∧
    (∀ k, k < roundedAmounts.length →
      breakdownTotal (bs.getD k []) = roundedAmounts.getD k 0) ∧
    (∀ b ∈ bs, ∀ e ∈ b, 0 < e.quantity) := by
  obtain ⟨alloc, h1, h2, h3, h4, h5, h6⟩ := allocate_success_spec _ _ _ _ hinv h
  refine ⟨by rw [h2, List.length_map, h1], ?_, ?_⟩
  · intro k hk
    have hk2 : k < alloc.length := by omega
    have hbsk : bs.getD k [] = countsToBreakdown (alloc.getD k emptyCounts) := by
      rw [h2, List.getD_eq_getElem _ _ (by rw [List.length_map]; omega),
        List.getElem_map, List.getD_eq_getElem _ _ hk2]
    rw [hbsk]
    obtain ⟨hnn, _, hsum⟩ := generateCombos_mem_iff.mp (h3 k hk)
    rw [breakdownTotal_countsToBreakdown hnn]
    exact hsum
  · intro b hb e he
    rw [h2] at hb
    obtain ⟨c, _, rfl⟩ := List.mem_map.mp hb
    have hf := List.mem_filter.mp he
    simpa using hf.2

/-- Witness for C9 at Scenario B. -/
theorem allocateBillBreakdowns_output_order_witness :
    countsNonneg (inventoryToCounts ⟨some 1, some 0, some 0, some 3⟩) ∧
    allocateBillBreakdowns [20, 3] ⟨some 1, some 0, some 0, some 3⟩ =
      some ([[⟨20, 1⟩], [⟨1, 3⟩]], ⟨some 0, some 0, some 0, some 0⟩) ∧
    (([[⟨20, 1⟩], [⟨1, 3⟩]] : List (List BreakdownEntry)).length =
        ([20, 3] : List Int).length ∧
      (∀ k, k < ([20, 3] : List Int).length →
        breakdownTotal
          (([[⟨20, 1⟩], [⟨1, 3⟩]] : List (List BreakdownEntry)).getD k []) =
          ([20, 3] : List Int).getD k 0) ∧
      (∀ b ∈ ([[⟨20, 1⟩], [⟨1, 3⟩]] : List (List BreakdownEntry)), ∀ e ∈ b,
        0 < e.quantity)) :=
  ⟨by decide, by decide,
    allocateBillBreakdowns_output_order [20, 3] ⟨some 1, some 0, some 0, some 3⟩
      [[⟨20, 1⟩], [⟨1, 3⟩]] ⟨some 0, some 0, some 0, some 0⟩
      (by decide) (by decide)⟩

/-- C3 (amended): Scenario A is infeasible, not feasible: both targets are
individually representable against the full inventory, but the inventory's
total value is 35, less than the 40 the two targets require, so the joint
search exhausts all choices and `allocateBillBreakdowns` returns `none`. -/
theorem scenarioA_infeasible :
    allocateBillBreakdowns [25, 15] ⟨some 0, some 2, some 2, some 5⟩ = none ∧
    generateCombos 25 (inventoryToCounts ⟨some 0, some 2, some 2, some 5⟩) ≠ [] ∧
    generateCombos 15 (inventoryToCounts ⟨some 0, some 2, some 2, some 5⟩) ≠ [] ∧
    calculateInventoryTotal ⟨some 0, some 2, some 2, some 5⟩ = 35 ∧
    calculateInventoryTotal ⟨some 0, some 2, some 2, some 5⟩ < 25 + 15 := by
  decide

end SbuxTips
